import Mathlib

/-!
Shallow embedding of the `eventual` package (getlantern/eventual): a
single-assignment eventual-value container with `Set`, `Cancel` and
`Get(timeout)`.

The embedding follows the evolution of `eventual.go` that has the tri-state
`status` field (`unset`/`set`/`canceled`) and the `Cancel` method.  Go
channels of capacity 1 are modelled as a buffer list plus a closed flag;
the container's channel store `chans` indexes every channel ever created,
and `waiters` holds the indices of the currently registered waiter
channels (`none` models a nil slice, `some l` a non-nil slice).  Because
`Set`, `Cancel` and the check/register part of `Get` each run under the
container's mutex, a sequential interleaving of those critical sections is
a faithful model; the blocking `select` of `Get` is split off as `receive`
so that other operations can be interleaved between registration and the
wakeup.  Durations are integers (Go `time.Duration` nanoseconds); a
`time.After` timer with a non-positive duration fires immediately, so the
time a timed-out wait blocks is `max timeout 0`.
-/

namespace Eventual

/-- The three values of the `status` field: `unset = 0`, `set = 1`,
`canceled = 2` in the source. -/
inductive Status where
  | unset
  | set
  | canceled
deriving DecidableEq

/-- A Go channel (`chan interface{}` with capacity 1): the list of buffered
messages plus whether the channel has been closed. -/
structure Chan (α : Type) where
  buf : List α
  closed : Bool
deriving DecidableEq

/-- The `value` struct: stored value (`atomic.Value`, `none` while never
stored), the status flag, the waiter slice (`none` = nil slice, holding
indices into `chans`), the store of every channel created so far, and a
flag recording whether a runtime panic occurred (send on a closed channel,
close of a closed channel). -/
structure State (α : Type) where
  val : Option α
  status : Status
  waiters : Option (List Nat)
  chans : List (Chan α)
  crashed : Bool
deriving DecidableEq

/-- `NewValue`: empty container with a non-nil empty waiter slice. -/
def NewValue {α : Type} : State α :=
  { val := none, status := Status.unset, waiters := some [], chans := [],
    crashed := false }

/-- The notification loop of `Set`: `for _, waiter := range v.waiters
\x7b waiter <- val \x7d`.  Sending on a closed channel panics (second
component `true`); otherwise the value is appended to the channel buffer. -/
def sendAll {α : Type} (chans : List (Chan α)) (ws : List Nat) (x : α) :
    List (Chan α) × Bool :=
  match ws with
  | [] => (chans, false)
  | i :: rest =>
    match chans[i]? with
    | none => (chans, true)
    | some c =>
      if c.closed then (chans, true)
      else sendAll (chans.set i { buf := c.buf ++ [x], closed := false }) rest x

/-- The notification loop of `Cancel`: `for _, waiter := range v.waiters
\x7b close(waiter) \x7d`.  Closing an already-closed channel panics. -/
def closeAll {α : Type} (chans : List (Chan α)) (ws : List Nat) :
    List (Chan α) × Bool :=
  match ws with
  | [] => (chans, false)
  | i :: rest =>
    match chans[i]? with
    | none => (chans, true)
    | some c =>
      if c.closed then (chans, true)
      else closeAll (chans.set i { buf := c.buf, closed := true }) rest

/-- `func (v *value) Set(val interface{})`: store the value, set the status
to `set`, and if the waiter slice is non-nil, send the value to every
registered waiter and clear the slice to nil. -/
def Value.Set {α : Type} (s : State α) (x : α) : State α :=
  match s.waiters with
  | none => { s with val := some x, status := Status.set }
  | some ws =>
    { s with val := some x, status := Status.set,
             chans := (sendAll s.chans ws x).1,
             crashed := s.crashed || (sendAll s.chans ws x).2,
             waiters := none }

/-- `func (v *value) Cancel()`: set the status to `canceled`, and if the
waiter slice is non-nil, close every registered waiter channel and clear
the slice to nil. -/
def Value.Cancel {α : Type} (s : State α) : State α :=
  match s.waiters with
  | none => { s with status := Status.canceled }
  | some ws =>
    { s with status := Status.canceled,
             chans := (closeAll s.chans ws).1,
             crashed := s.crashed || (closeAll s.chans ws).2,
             waiters := none }

/-- The outcome of a `Get` call: the returned value (`none` = Go nil), the
`valid` boolean, and how long the call blocked before returning
(0 on the fast or slow immediate paths; `max timeout 0` when the
`time.After` timer fired). -/
structure GetResult (α : Type) where
  ret : Option α
  valid : Bool
  waited : Int
deriving DecidableEq

/-- Result of the locked check/register part of `Get`: either an immediate
return, or the index of the freshly registered waiter channel. -/
inductive PollOut (α : Type) where
  | done (r : GetResult α)
  | registered (id : Nat)
deriving DecidableEq

/-- The part of `Get` up to releasing the mutex: the fast unlocked status
check, the re-check under the lock (in this sequential model of a critical
section the two reads coincide), and, when the status is still `unset`,
the registration of a fresh capacity-1 channel in `waiters`. -/
def getPoll {α : Type} (s : State α) : State α × PollOut α :=
  if s.status = Status.canceled then
    (s, PollOut.done { ret := none, valid := false, waited := 0 })
  else if s.status = Status.set then
    (s, PollOut.done { ret := s.val, valid := true, waited := 0 })
  else
    ({ s with chans := s.chans ++ [{ buf := [], closed := false }],
              waiters := some (s.waiters.getD [] ++ [s.chans.length]) },
     PollOut.registered s.chans.length)

/-- The `select` at the end of `Get`, evaluated when the wait resolves: a
buffered value is delivered as `(v, true)`; a closed empty channel delivers
the zero value with `ok = false`; otherwise the `time.After(timeout)` case
fires (immediately when `timeout ≤ 0`) and the call returns `(nil, false)`
after blocking `max timeout 0`. -/
def receive {α : Type} (s : State α) (id : Nat) (timeout : Int) : GetResult α :=
  match s.chans[id]? with
  | none => { ret := none, valid := false, waited := 0 }
  | some c =>
    match c.buf with
    | x :: _ => { ret := some x, valid := true, waited := 0 }
    | [] =>
      if c.closed then { ret := none, valid := false, waited := 0 }
      else { ret := none, valid := false, waited := max timeout 0 }

/-- `func (v *value) Get(timeout time.Duration)` run without any
interleaved operation during the wait: the check/register phase followed
directly by the `select` (a registered channel then has no sender, so the
timer case fires). -/
def Value.Get {α : Type} (s : State α) (timeout : Int) :
    State α × GetResult α :=
  match getPoll s with
  | (s₁, PollOut.done r) => (s₁, r)
  | (s₁, PollOut.registered id) => (s₁, receive s₁ id timeout)

/-- An API call on the container.  `get` covers the state effect of a full
`Get` call (only its registration phase mutates the state). -/
inductive Op (α : Type) where
  | set (x : α)
  | cancel
  | get (timeout : Int)
deriving DecidableEq

/-- One API call applied to the state. -/
def step {α : Type} (s : State α) : Op α → State α
  | Op.set x => Value.Set s x
  | Op.cancel => Value.Cancel s
  | Op.get t => (Value.Get s t).1

/-- A sequence of API calls applied in order. -/
def run {α : Type} (s : State α) : List (Op α) → State α
  | [] => s
  | op :: ops => run (step s op) ops

/-- States reachable from a fresh container by some sequence of calls. -/
def Reachable {α : Type} (s : State α) : Prop :=
  ∃ ops : List (Op α), run NewValue ops = s

/-- A sequence of complete sequential `Get` calls with the given timeouts,
collecting their results. -/
def runGets {α : Type} (s : State α) : List Int → State α × List (GetResult α)
  | [] => (s, [])
  | t :: ts =>
    ((runGets (Value.Get s t).1 ts).1,
     (Value.Get s t).2 :: (runGets (Value.Get s t).1 ts).2)

/-- `n` Get calls that each run their check/register phase (none of them
has resolved yet), collecting the indices of the registered channels. -/
def registerN {α : Type} (s : State α) : Nat → State α × List Nat
  | 0 => (s, [])
  | Nat.succ n =>
    match getPoll s with
    | (s₁, PollOut.registered id) =>
      ((registerN s₁ n).1, id :: (registerN s₁ n).2)
    | (s₁, PollOut.done _) => (s₁, [])

/-- The reachable-state invariant: no panic has occurred; the waiter slice
is non-nil exactly while the status is `unset`; the registered indices are
distinct and each points at a live channel that is still empty and open. -/
def Inv {α : Type} (s : State α) : Prop :=
  s.crashed = false ∧
  (s.status = Status.unset ↔ s.waiters.isSome) ∧
  ∀ ws, s.waiters = some ws →
    ws.Nodup ∧ ∀ i ∈ ws, s.chans[i]? = some { buf := [], closed := false }

/-- `type Getter func(time.Duration) (interface\x7b\x7d, bool)`. -/
def Getter (α : Type) : Type :=
  Int → α × Bool

/-- `DefaultGetter` builds a Getter that always returns the supplied
value. -/
def DefaultGetter {α : Type} (val : α) : Getter α :=
  fun _ => (val, true)

/-- The status each operation leaves behind: `Set` always forces `set`,
`Cancel` always forces `canceled`, `Get` never writes the status. -/
def statusAfter {α : Type} (st : Status) : Op α → Status
  | Op.set _ => Status.set
  | Op.cancel => Status.canceled
  | Op.get _ => st

theorem get_fst {α : Type} (s : State α) (t : Int) :
    (Value.Get s t).1 = (getPoll s).1 := by
  unfold Value.Get
  rcases hp : getPoll s with ⟨s₁, r | id⟩ <;> rfl

theorem getPoll_of_canceled {α : Type} (s : State α)
    (h : s.status = Status.canceled) :
    getPoll s = (s, PollOut.done { ret := none, valid := false, waited := 0 }) := by
  simp [getPoll, h]

theorem getPoll_of_set {α : Type} (s : State α) (h : s.status = Status.set) :
    getPoll s = (s, PollOut.done { ret := s.val, valid := true, waited := 0 }) := by
  simp [getPoll, h]

theorem getPoll_of_unset {α : Type} (s : State α) (h : s.status = Status.unset) :
    getPoll s = ({ s with chans := s.chans ++ [{ buf := [], closed := false }],
                          waiters := some (s.waiters.getD [] ++ [s.chans.length]) },
                 PollOut.registered s.chans.length) := by
  simp [getPoll, h]

theorem get_of_canceled {α : Type} (s : State α) (t : Int)
    (h : s.status = Status.canceled) :
    Value.Get s t = (s, { ret := none, valid := false, waited := 0 }) := by
  unfold Value.Get
  rw [getPoll_of_canceled s h]

theorem get_of_set {α : Type} (s : State α) (t : Int) (h : s.status = Status.set) :
    Value.Get s t = (s, { ret := s.val, valid := true, waited := 0 }) := by
  unfold Value.Get
  rw [getPoll_of_set s h]

theorem get_of_unset {α : Type} (s : State α) (t : Int)
    (h : s.status = Status.unset) :
    Value.Get s t =
      ({ s with chans := s.chans ++ [{ buf := [], closed := false }],
                waiters := some (s.waiters.getD [] ++ [s.chans.length]) },
       { ret := none, valid := false, waited := max t 0 }) := by
  unfold Value.Get
  rw [getPoll_of_unset s h]
  simp [receive, List.getElem?_concat_length]

theorem sendAll_spec {α : Type} (x : α) (ws : List Nat) :
    ∀ chans : List (Chan α), ws.Nodup →
      (∀ i ∈ ws, chans[i]? = some { buf := [], closed := false }) →
      (sendAll chans ws x).2 = false ∧
      (∀ i ∈ ws, (sendAll chans ws x).1[i]? = some { buf := [x], closed := false }) ∧
      ∀ i, i ∉ ws → (sendAll chans ws x).1[i]? = chans[i]? := by
  induction ws with
  | nil =>
    intro chans _ _
    exact ⟨rfl, by simp, fun i _ => by simp [sendAll]⟩
  | cons j rest ih =>
    intro chans hnd hv
    have hj : chans[j]? = some { buf := [], closed := false } := hv j (by simp)
    have hjlt : j < chans.length := (List.getElem?_eq_some.mp hj).1
    have hjr : j ∉ rest := (List.nodup_cons.mp hnd).1
    have hrest : rest.Nodup := (List.nodup_cons.mp hnd).2
    have hstep : sendAll chans (j :: rest) x
        = sendAll (chans.set j { buf := [x], closed := false }) rest x := by
      simp [sendAll, hj]
    have hv' : ∀ i ∈ rest,
        (chans.set j { buf := [x], closed := false })[i]?
          = some { buf := [], closed := false } := by
      intro i hi
      have hij : j ≠ i := fun hji => hjr (hji ▸ hi)
      rw [List.getElem?_set_ne hij]
      exact hv i (List.mem_cons_of_mem j hi)
    obtain ⟨h1, h2, h3⟩ := ih (chans.set j { buf := [x], closed := false }) hrest hv'
    refine ⟨hstep ▸ h1, ?_, ?_⟩
    · intro i hi
      rcases List.mem_cons.mp hi with hij | hir
      · subst hij
        rw [hstep, h3 i hjr]
        exact List.getElem?_set_eq_of_lt _ hjlt
      · rw [hstep]
        exact h2 i hir
    · intro i hi
      have hij : i ≠ j := fun hij => hi (hij ▸ List.mem_cons_self j rest)
      have hir : i ∉ rest := fun hir => hi (List.mem_cons_of_mem j hir)
      rw [hstep, h3 i hir, List.getElem?_set_ne (Ne.symm hij)]

theorem closeAll_spec {α : Type} (ws : List Nat) :
    ∀ chans : List (Chan α), ws.Nodup →
      (∀ i ∈ ws, chans[i]? = some { buf := [], closed := false }) →
      (closeAll chans ws).2 = false ∧
      (∀ i ∈ ws, (closeAll chans ws).1[i]? = some { buf := ([] : List α), closed := true }) ∧
      ∀ i, i ∉ ws → (closeAll chans ws).1[i]? = chans[i]? := by
  induction ws with
  | nil =>
    intro chans _ _
    exact ⟨rfl, by simp, fun i _ => by simp [closeAll]⟩
  | cons j rest ih =>
    intro chans hnd hv
    have hj : chans[j]? = some { buf := [], closed := false } := hv j (by simp)
    have hjlt : j < chans.length := (List.getElem?_eq_some.mp hj).1
    have hjr : j ∉ rest := (List.nodup_cons.mp hnd).1
    have hrest : rest.Nodup := (List.nodup_cons.mp hnd).2
    have hstep : closeAll chans (j :: rest)
        = closeAll (chans.set j { buf := [], closed := true }) rest := by
      simp [closeAll, hj]
    have hv' : ∀ i ∈ rest,
        (chans.set j { buf := [], closed := true })[i]?
          = some { buf := [], closed := false } := by
      intro i hi
      have hij : j ≠ i := fun hji => hjr (hji ▸ hi)
      rw [List.getElem?_set_ne hij]
      exact hv i (List.mem_cons_of_mem j hi)
    obtain ⟨h1, h2, h3⟩ := ih (chans.set j { buf := [], closed := true }) hrest hv'
    refine ⟨hstep ▸ h1, ?_, ?_⟩
    · intro i hi
      rcases List.mem_cons.mp hi with hij | hir
      · subst hij
        rw [hstep, h3 i hjr]
        exact List.getElem?_set_eq_of_lt _ hjlt
      · rw [hstep]
        exact h2 i hir
    · intro i hi
      have hij : i ≠ j := fun hij => hi (hij ▸ List.mem_cons_self j rest)
      have hir : i ∉ rest := fun hir => hi (List.mem_cons_of_mem j hir)
      rw [hstep, h3 i hir, List.getElem?_set_ne (Ne.symm hij)]

theorem inv_NewValue {α : Type} : Inv (NewValue : State α) := by
  refine ⟨rfl, by simp [NewValue], ?_⟩
  intro ws hw
  simp [NewValue] at hw
  subst hw
  simp

theorem inv_Set {α : Type} (s : State α) (x : α) (h : Inv s) :
    Inv (Value.Set s x) := by
  obtain ⟨hc, hiff, hreg⟩ := h
  cases hw : s.waiters with
  | none =>
    refine ⟨?_, ?_, ?_⟩ <;> simp [Value.Set, hw, hc]
  | some ws =>
    obtain ⟨hnd, hv⟩ := hreg ws hw
    obtain ⟨h1, _, _⟩ := sendAll_spec x ws s.chans hnd hv
    refine ⟨?_, ?_, ?_⟩ <;> simp [Value.Set, hw, hc, h1]

theorem inv_Cancel {α : Type} (s : State α) (h : Inv s) :
    Inv (Value.Cancel s) := by
  obtain ⟨hc, hiff, hreg⟩ := h
  cases hw : s.waiters with
  | none =>
    refine ⟨?_, ?_, ?_⟩ <;> simp [Value.Cancel, hw, hc]
  | some ws =>
    obtain ⟨hnd, hv⟩ := hreg ws hw
    obtain ⟨h1, _, _⟩ := closeAll_spec ws s.chans hnd hv
    refine ⟨?_, ?_, ?_⟩ <;> simp [Value.Cancel, hw, hc, h1]

theorem inv_getPoll {α : Type} (s : State α) (h : Inv s) :
    Inv (getPoll s).1 := by
  obtain ⟨hc, hiff, hreg⟩ := h
  by_cases h1 : s.status = Status.canceled
  · rw [getPoll_of_canceled s h1]
    exact ⟨hc, hiff, hreg⟩
  by_cases h2 : s.status = Status.set
  · rw [getPoll_of_set s h2]
    exact ⟨hc, hiff, hreg⟩
  have hu : s.status = Status.unset := by
    cases hs : s.status <;> simp_all
  obtain ⟨ws, hw⟩ := Option.isSome_iff_exists.mp (hiff.mp hu)
  obtain ⟨hnd, hv⟩ := hreg ws hw
  have hlen : s.chans.length ∉ ws := by
    intro hmem
    have := (List.getElem?_eq_some.mp (hv _ hmem)).1
    omega
  rw [getPoll_of_unset s hu]
  refine ⟨by simp [hc], by simp [hu], ?_⟩
  intro ws' hw'
  simp only [hw, Option.getD_some] at hw'
  obtain rfl : ws ++ [s.chans.length] = ws' := by
    simpa using hw'
  constructor
  · rw [← List.concat_eq_append]
    exact List.Nodup.concat hlen hnd
  · intro i hi
    rcases List.mem_append.mp hi with hiw | hil
    · have hilt : i < s.chans.length := (List.getElem?_eq_some.mp (hv _ hiw)).1
      show (s.chans ++ [{ buf := [], closed := false }])[i]? = _
      rw [List.getElem?_append]
      simpa [hilt] using hv _ hiw
    · obtain rfl : i = s.chans.length := by simpa using hil
      show (s.chans ++ [{ buf := [], closed := false }])[s.chans.length]? = _
      exact List.getElem?_concat_length _ _

theorem inv_step {α : Type} (s : State α) (op : Op α) (h : Inv s) :
    Inv (step s op) := by
  cases op with
  | set x => exact inv_Set s x h
  | cancel => exact inv_Cancel s h
  | get t =>
    have hg : step s (Op.get t) = (getPoll s).1 := get_fst s t
    rw [hg]
    exact inv_getPoll s h

theorem inv_run {α : Type} (ops : List (Op α)) :
    ∀ s : State α, Inv s → Inv (run s ops) := by
  induction ops with
  | nil => exact fun s h => h
  | cons op rest ih => exact fun s h => ih (step s op) (inv_step s op h)

theorem reachable_inv {α : Type} (s : State α) (h : Reachable s) : Inv s := by
  obtain ⟨ops, rfl⟩ := h
  exact inv_run ops NewValue inv_NewValue

theorem run_append_one {α : Type} (ops : List (Op α)) (op : Op α) :
    ∀ s : State α, run s (ops ++ [op]) = step (run s ops) op := by
  induction ops with
  | nil => exact fun s => rfl
  | cons o rest ih => exact fun s => ih (step s o)

theorem runGets_of_canceled {α : Type} (ts : List Int) :
    ∀ s : State α, s.status = Status.canceled →
      (runGets s ts).2
        = List.replicate ts.length { ret := none, valid := false, waited := 0 } := by
  induction ts with
  | nil => exact fun s _ => rfl
  | cons t rest ih =>
    intro s h
    simp only [runGets, get_of_canceled s t h, List.length_cons, List.replicate_succ]
    exact congrArg _ (ih s h)

theorem Cancel_status {α : Type} (s : State α) :
    (Value.Cancel s).status = Status.canceled := by
  cases hw : s.waiters <;> simp [Value.Cancel, hw]

theorem Set_status {α : Type} (s : State α) (x : α) :
    (Value.Set s x).status = Status.set := by
  cases hw : s.waiters <;> simp [Value.Set, hw]

theorem Set_waiters_none {α : Type} (s : State α) (x : α) (ws : List Nat)
    (hw : s.waiters = some ws) : (Value.Set s x).waiters = none := by
  simp [Value.Set, hw]

theorem Set_chans {α : Type} (s : State α) (x : α) (ws : List Nat)
    (hw : s.waiters = some ws) :
    (Value.Set s x).chans = (sendAll s.chans ws x).1 := by
  simp [Value.Set, hw]

theorem receive_buffered {α : Type} (s : State α) (id : Nat) (t : Int) (x : α)
    (b : List α) (cl : Bool)
    (h : s.chans[id]? = some { buf := x :: b, closed := cl }) :
    receive s id t = { ret := some x, valid := true, waited := 0 } := by
  simp [receive, h]

theorem registerN_spec {α : Type} (n : Nat) :
    ∀ (s : State α) (ws : List Nat), Inv s → s.status = Status.unset →
      s.waiters = some ws →
      Inv (registerN s n).1 ∧
      (registerN s n).1.status = Status.unset ∧
      (registerN s n).1.waiters = some (ws ++ (registerN s n).2) ∧
      (registerN s n).2.length = n := by
  induction n with
  | zero =>
    intro s ws h hu hw
    exact ⟨h, hu, by simp [registerN, hw], rfl⟩
  | succ n ih =>
    intro s ws h hu hw
    have hpoll := getPoll_of_unset s hu
    have hs₁ : Inv (getPoll s).1 := inv_getPoll s h
    rw [hpoll] at hs₁
    have hu₁ : ({ s with chans := s.chans ++ [{ buf := [], closed := false }],
                         waiters := some (s.waiters.getD [] ++ [s.chans.length])
                } : State α).status = Status.unset := hu
    have hw₁ : ({ s with chans := s.chans ++ [{ buf := [], closed := false }],
                         waiters := some (s.waiters.getD [] ++ [s.chans.length])
                } : State α).waiters = some (ws ++ [s.chans.length]) := by
      simp [hw]
    obtain ⟨i1, i2, i3, i4⟩ := ih _ (ws ++ [s.chans.length]) hs₁ hu₁ hw₁
    simp only [registerN, hpoll]
    refine ⟨i1, i2, ?_, by simp [i4]⟩
    rw [i3, List.append_assoc]
    rfl

/-- Claim C1, counterexample: the claim says a terminal state never changes
again, but on a canceled container a later `Set 5` flips the status from
`canceled` to `set` (the §9 deviation: `Set` unconditionally overwrites the
status). -/
theorem cancel_then_set_flips_status :
    (run (NewValue : State Nat) [Op.cancel]).status = Status.canceled ∧
    (run (NewValue : State Nat) [Op.cancel, Op.set 5]).status = Status.set := by
  constructor <;> rfl

/-- Claim C1, amended: the status after each call is a function of the call
alone for `Set` and `Cancel` — `Set` always leaves `set` and `Cancel`
always leaves `canceled`, whatever the current status (so `canceled` can
still become `set` and vice versa) — while `Get` never changes the status;
in particular the status never returns to `unset` once resolved. -/
theorem status_after_step {α : Type} (s : State α) (op : Op α) :
    (step s op).status = statusAfter s.status op := by
  cases op with
  | set x => exact Set_status s x
  | cancel => exact Cancel_status s
  | get t =>
    rw [show step s (Op.get t) = (Value.Get s t).1 from rfl, get_fst]
    by_cases h1 : s.status = Status.canceled
    · rw [getPoll_of_canceled s h1]
      rfl
    · by_cases h2 : s.status = Status.set
      · rw [getPoll_of_set s h2]
        rfl
      · have hu : s.status = Status.unset := by
          cases hs : s.status <;> simp_all
        rw [getPoll_of_unset s hu]
        rfl

/-- Claim C2: on any reachable container with registered waiter channels,
`Set x` sends `x` to every registered channel exactly once (its buffer
afterwards holds exactly the one message `x`), touches no other channel,
and clears the waiter collection. -/
theorem set_notifies_waiters_once {α : Type} (s : State α) (x : α)
    (ws : List Nat) (hr : Reachable s) (hw : s.waiters = some ws) :
    (Value.Set s x).waiters = none ∧
    (∀ i ∈ ws, (Value.Set s x).chans[i]? = some { buf := [x], closed := false }) ∧
    ∀ i, i ∉ ws → (Value.Set s x).chans[i]? = s.chans[i]? := by
  have hinv := reachable_inv s hr
  obtain ⟨hnd, hv⟩ := hinv.2.2 ws hw
  obtain ⟨_, h2, h3⟩ := sendAll_spec x ws s.chans hnd hv
  refine ⟨Set_waiters_none s x ws hw, ?_, ?_⟩
  · intro i hi
    rw [Set_chans s x ws hw]
    exact h2 i hi
  · intro i hi
    rw [Set_chans s x ws hw]
    exact h3 i hi

theorem set_notifies_waiters_once_witness :
    Reachable (run (NewValue : State Nat) [Op.get 7]) ∧
    (run (NewValue : State Nat) [Op.get 7]).waiters = some [0] ∧
    (Value.Set (run (NewValue : State Nat) [Op.get 7]) 42).waiters = none ∧
    (∀ i ∈ [0], (Value.Set (run (NewValue : State Nat) [Op.get 7]) 42).chans[i]?
        = some { buf := [42], closed := false }) ∧
    ∀ i, i ∉ [0] →
      (Value.Set (run (NewValue : State Nat) [Op.get 7]) 42).chans[i]?
        = (run (NewValue : State Nat) [Op.get 7]).chans[i]? := by
  have h := set_notifies_waiters_once (run (NewValue : State Nat) [Op.get 7])
    42 [0] ⟨[Op.get 7], rfl⟩ rfl
  exact ⟨⟨[Op.get 7], rfl⟩, rfl, h.1, h.2.1, h.2.2⟩

/-- Claim C3: a `Get` with timeout 0 on a still-unset container returns
`(nil, false)` without blocking (the registered wait's `time.After(0)`
timer fires immediately, so the time blocked is 0). -/
theorem get_zero_timeout_immediate {α : Type} (s : State α)
    (h : s.status = Status.unset) :
    (Value.Get s 0).2 = { ret := none, valid := false, waited := 0 } := by
  rw [get_of_unset s 0 h]
  simp

theorem get_zero_timeout_immediate_witness :
    (NewValue : State Nat).status = Status.unset ∧
    (Value.Get (NewValue : State Nat) 0).2
      = { ret := none, valid := false, waited := 0 } :=
  ⟨rfl, get_zero_timeout_immediate NewValue rfl⟩

/-- Claim C4: after `Cancel` on a container that was never set, every
subsequent `Get`, for every timeout, returns `(nil, false)` having blocked
for no time at all (the canceled status is seen on the fast path). -/
theorem get_after_cancel_immediate {α : Type} (ops : List (Op α))
    (_hns : ∀ x : α, Op.set x ∉ ops) (ts : List Int) :
    (runGets (run NewValue (ops ++ [Op.cancel])) ts).2
      = List.replicate ts.length { ret := none, valid := false, waited := 0 } := by
  have hst : (run NewValue (ops ++ [Op.cancel])).status = Status.canceled := by
    rw [run_append_one ops Op.cancel NewValue]
    exact Cancel_status _
  exact runGets_of_canceled ts _ hst

theorem get_after_cancel_immediate_witness :
    (∀ x : Nat, Op.set x ∉ ([] : List (Op Nat))) ∧
    (runGets (run (NewValue : State Nat) ([] ++ [Op.cancel])) [3, -1]).2
      = List.replicate 2 { ret := none, valid := false, waited := 0 } :=
  ⟨fun x => List.not_mem_nil (Op.set x),
   get_after_cancel_immediate [] (fun x => List.not_mem_nil (Op.set x)) [3, -1]⟩

/-- Claim C5: after `Set x` followed by `Cancel`, every subsequent `Get`
(for any sequence of timeouts) returns the same outcome — here always
`(nil, false)`, since the later `Cancel` overwrote the status — so the
claimed dichotomy (always `(x, true)` or always invalid) holds through its
second branch and repeated calls never alternate. -/
theorem set_cancel_get_consistent {α : Type} (s : State α) (x : α)
    (ts : List Int) :
    (runGets (Value.Cancel (Value.Set s x)) ts).2
      = List.replicate ts.length { ret := none, valid := false, waited := 0 } :=
  runGets_of_canceled ts _ (Cancel_status _)

/-- Claim C6: on a reachable, still-unset container, after `n` Get calls
have each registered a waiter channel, a single `Set x` makes every one of
those `n` channels deliver `(x, true)` to its Get call: none times out,
none sees a different value. -/
theorem fanin_all_receive {α : Type} (s : State α) (n : Nat) (x : α) (t : Int)
    (hr : Reachable s) (hu : s.status = Status.unset) :
    (registerN s n).2.length = n ∧
    (registerN s n).2.map
        (fun id => receive (Value.Set (registerN s n).1 x) id t)
      = List.replicate n { ret := some x, valid := true, waited := 0 } := by
  have hinv := reachable_inv s hr
  obtain ⟨ws, hw⟩ := Option.isSome_iff_exists.mp (hinv.2.1.mp hu)
  obtain ⟨i1, _, i3, i4⟩ := registerN_spec n s ws hinv hu hw
  obtain ⟨hnd, hv⟩ := i1.2.2 _ i3
  obtain ⟨_, h2, _⟩ := sendAll_spec x _ (registerN s n).1.chans hnd hv
  refine ⟨i4, List.eq_replicate_iff.mpr ⟨by simp [i4], ?_⟩⟩
  intro r hrmem
  obtain ⟨id, hid, rfl⟩ := List.mem_map.mp hrmem
  have hidw : id ∈ ws ++ (registerN s n).2 := List.mem_append_right ws hid
  refine receive_buffered _ id t x [] false ?_
  rw [Set_chans _ x _ i3]
  exact h2 id hidw

theorem fanin_all_receive_witness :
    Reachable (NewValue : State Nat) ∧
    (NewValue : State Nat).status = Status.unset ∧
    (registerN (NewValue : State Nat) 2).2.length = 2 ∧
    (registerN (NewValue : State Nat) 2).2.map
        (fun id => receive (Value.Set (registerN (NewValue : State Nat) 2).1 9) id 5)
      = List.replicate 2 { ret := some 9, valid := true, waited := 0 } := by
  have h := fanin_all_receive (NewValue : State Nat) 2 9 5 ⟨[], rfl⟩ rfl
  exact ⟨⟨[], rfl⟩, rfl, h.1, h.2⟩

/-- Claim C7, counterexample: `Get` recognizes no infinite-sentinel
timeout.  Whatever the timeout `d`, a `Get` on a fresh container that is
never resolved during the wait returns the timed-out `(nil, false)` after
blocking `max d 0` — there is no `d` whose outcome differs from the
bounded-deadline one. -/
theorem no_infinite_sentinel :
    ¬ ∃ d : Int, (Value.Get (NewValue : State Nat) d).2
        ≠ { ret := none, valid := false, waited := max d 0 } := by
  rintro ⟨d, hd⟩
  exact hd (by rw [get_of_unset NewValue d rfl])

/-- Claim C7, amended: every timeout value `d` is treated uniformly as a
bounded deadline firing after `max d 0`: a `Get` on a container that is
unresolved (and stays unresolved during the wait) returns `(nil, false)`
after blocking `max d 0`; no timeout value produces an unbounded wait. -/
theorem get_timeout_bounded {α : Type} (s : State α) (d : Int)
    (h : s.status = Status.unset) :
    (Value.Get s d).2 = { ret := none, valid := false, waited := max d 0 } := by
  rw [get_of_unset s d h]

theorem get_timeout_bounded_witness :
    (NewValue : State Nat).status = Status.unset ∧
    (Value.Get (NewValue : State Nat) 7).2
      = { ret := none, valid := false, waited := max 7 0 } :=
  ⟨rfl, get_timeout_bounded NewValue 7 rfl⟩

/-- Claim C8: no sequence of `Set`, `Cancel` and `Get` calls ever panics:
no send on a closed channel and no double close occurs, because the first
terminal call clears the waiter collection and every later terminal call
finds it already nil (whenever the status is resolved the collection is
nil). -/
theorem ops_never_crash {α : Type} (ops : List (Op α)) :
    (run NewValue ops).crashed = false ∧
    ((run NewValue ops).status = Status.unset ∨
      (run NewValue ops).waiters = none) := by
  have hinv := inv_run ops NewValue inv_NewValue
  refine ⟨hinv.1, ?_⟩
  by_cases h : (run NewValue ops).status = Status.unset
  · exact Or.inl h
  · right
    cases hw : (run NewValue ops).waiters with
    | none => rfl
    | some ws => exact absurd (hinv.2.1.mpr (by simp [hw])) h

/-- Claim C9: `DefaultGetter p` returns `(p, true)` for every timeout; the
result does not depend on the timeout (no container is involved at all). -/
theorem defaultGetter_constant {α : Type} (p : α) (t u : Int) :
    DefaultGetter p t = (p, true) ∧ DefaultGetter p t = DefaultGetter p u :=
  ⟨rfl, rfl⟩

/-- Claim C10: a `Get` with a negative timeout on a still-unset container
behaves exactly like `Get 0`: it still registers a waiter channel (the
channel store grows by one) and then returns `(nil, false)` having blocked
for no time, because `time.After` with a negative duration fires at
once. -/
theorem get_negative_timeout {α : Type} (s : State α) (t : Int)
    (h : s.status = Status.unset) (hneg : t < 0) :
    Value.Get s t = Value.Get s 0 ∧
    (Value.Get s t).2 = { ret := none, valid := false, waited := 0 } ∧
    (Value.Get s t).1.chans.length = s.chans.length + 1 := by
  have hm : max t 0 = 0 := max_eq_right hneg.le
  rw [get_of_unset s t h, get_of_unset s 0 h]
  refine ⟨by simp [hm], by simp [hm], by simp⟩

theorem get_negative_timeout_witness :
    (NewValue : State Nat).status = Status.unset ∧ (-3 : Int) < 0 ∧
    (Value.Get (NewValue : State Nat) (-3) = Value.Get (NewValue : State Nat) 0 ∧
     (Value.Get (NewValue : State Nat) (-3)).2
       = { ret := none, valid := false, waited := 0 } ∧
     (Value.Get (NewValue : State Nat) (-3)).1.chans.length
       = (NewValue : State Nat).chans.length + 1) :=
  ⟨rfl, by decide, get_negative_timeout NewValue (-3) rfl (by decide)⟩

end Eventual
